import Mathlib

/-!
# Verification of the dynamiqs / torchqdynamics integrator core

A shallow embedding, in Lean 4, of the parts of the repository that the
specification talks about, together with theorems settling each claim.

Conventions of the embedding:
* JAX / torch arrays become Lean `List`s and Mathlib `Matrix` values;
* complex matrices are `Matrix (Fin n) (Fin n) ℂ`;
* time values are rationals (`ℚ`), standing for exact real arithmetic;
* Python functions that can raise become `Except String _`;
* `jax.lax.scan` becomes an explicit structural recursion over lists.

Sections follow the source files:
* `ExpmSolverModel`   — `dynamiqs/core/expm_solver.py`
* `DiffraxModel`      — `dynamiqs/integrators/core/diffrax_integrator.py`
* `SaveModel`         — `dynamiqs/integrators/core/save_mixin.py`, `dynamiqs/result.py`
* `DsmesolveModel`    — `dynamiqs/integrators/apis/dsmesolve.py`
* `OdeintModel`       — `torchqdynamics/odeint.py`
-/

namespace Spec2Proof

open Matrix

/-! ## Generic helpers -/

/-- Shallow embedding of `jax.lax.scan`: threads a carry through the list,
returning the final carry and the list of per-step outputs. -/
def scan {C X Y : Type} (f : C → X → C × Y) : C → List X → C × List Y
  | c, [] => (c, [])
  | c, x :: xs =>
    let cy := f c x
    let rest := scan f cy.1 xs
    (rest.1, cy.2 :: rest.2)

/-! ## ExpmSolverModel — `dynamiqs/core/expm_solver.py` -/

/-- Square complex matrices, the state space of the propagator solver. -/
abbrev Mat (n : ℕ) := Matrix (Fin n) (Fin n) ℂ

/-- The body of `_reduce` in `ExpmSolver.run`: the next propagator is
multiplied on the left of the accumulated product, and the result is both
the new carry and the per-step output of the scan. -/
noncomputable def reduceProp {n : ℕ} (prev_prop next_prop : Mat n) : Mat n × Mat n :=
  (next_prop * prev_prop, next_prop * prev_prop)

/-- The propagator composition performed by `ExpmSolver.run`:
`jax.lax.scan(_reduce, eye, step_propagators)`. -/
noncomputable def composeProps {n : ℕ} (step_propagators : List (Mat n)) :
    Mat n × List (Mat n) :=
  scan reduceProp 1 step_propagators

/-! ### Time-indexed operators

`ExpmSolver.__init__` dispatches on the concrete `TimeArray` class of the
Hamiltonian. The classes themselves are not under `src/`; the variants
(constant, piecewise-constant on given breakpoints, modulated, callable, and
sums thereof) and their discontinuity sets are taken from the data model of
the spec. -/

/-- Modelled from the spec: the `TimeArray` variants — constant,
piecewise-constant-on-given-breakpoints, modulated-by-envelope,
arbitrary-callable, and a sum of any of these. Payloads carry what evaluation
needs: the constant matrix, the breakpoints, and the evaluation function. -/
inductive TimeArray (n : ℕ) where
  | constant (M : Mat n)
  | pwc (times : List ℚ) (f : ℚ → Mat n)
  | modulated (f : ℚ → Mat n)
  | callable (f : ℚ → Mat n)
  | summed (timearrays : List (TimeArray n))

/-- Evaluation of a time-indexed operator at a time `t` (`H(t)` in the source);
a sum evaluates to the sum of its children. -/
noncomputable def TimeArray.eval {n : ℕ} : TimeArray n → ℚ → Mat n
  | .constant M => fun _ => M
  | .pwc _ f => fun t => f t
  | .modulated f => fun t => f t
  | .callable f => fun t => f t
  | .summed tas => fun t => (tas.attach.map fun ta => ta.1.eval t).sum
termination_by ta => sizeOf ta
decreasing_by
  have h := List.sizeOf_lt_of_mem ta.2
  simp only [TimeArray.summed.sizeOf_spec]
  omega

/-- Modelled from the spec: the set of discontinuity times — empty for
constant/modulated/callable, the breakpoints for piecewise-constant, the union
of the children for sums. -/
def TimeArray.discontinuity_ts {n : ℕ} : TimeArray n → List ℚ
  | .constant _ => []
  | .pwc times _ => times
  | .modulated _ => []
  | .callable _ => []
  | .summed tas => (tas.attach.map fun ta => ta.1.discontinuity_ts).flatten
termination_by ta => sizeOf ta
decreasing_by
  have h := List.sizeOf_lt_of_mem ta.2
  simp only [TimeArray.summed.sizeOf_spec]
  omega

/-! ### `ExpmSolver.__init__` — the constant-or-piecewise-constant check -/

/-- The `isinstance(·, (ConstantTimeArray, PWCTimeArray))` test. -/
def isConstantOrPWC {n : ℕ} : TimeArray n → Bool
  | .constant _ => true
  | .pwc _ _ => true
  | _ => false

/-- The check computed by `ExpmSolver.__init__` (lines 19–29): the Hamiltonian
is constant or piecewise-constant, or a sum all of whose members are. -/
def constant_or_pwc_check {n : ℕ} : TimeArray n → Bool
  | .constant _ => true
  | .pwc _ _ => true
  | .summed timearrays => timearrays.all isConstantOrPWC
  | _ => false

/-- The message of the `TypeError` raised by `ExpmSolver.__init__`. -/
def expmCheckErr : String :=
  "Solver Expm requires a time-independent Hamiltonian, piece-wise constant Hamiltonian or sum of such Hamiltonians."

/-- Model of `ExpmSolver.__init__` (lines 16–34): raise the `TypeError` when the check
fails, otherwise construct the solver. -/
def expmSolverInit {n : ℕ} (H : TimeArray n) : Except String Unit :=
  if constant_or_pwc_check H then Except.ok () else Except.error expmCheckErr

/-- The generator classification in the words of the claim: constant,
piecewise-constant, or a sum whose every summand is constant or
piecewise-constant. -/
def ClaimConstantPwcOrSum {n : ℕ} (H : TimeArray n) : Prop :=
  (∃ M, H = .constant M) ∨ (∃ bts f, H = .pwc bts f) ∨
    ∃ tas, H = .summed tas ∧
      ∀ ta ∈ tas, (∃ M, ta = TimeArray.constant M) ∨ ∃ bts f, ta = TimeArray.pwc bts f

/-! ### `ExpmSolver.run` -/

/-- Modelled from the spec: `expm` (imported by `expm_solver.py` from the
utilities package, which is not under `src/`) is the matrix exponential used to
turn a constant generator over an interval into its propagator. -/
noncomputable def expm {n : ℕ} (A : Mat n) : Mat n := NormedSpace.exp ℂ A

/-- Index of the first minimum of a list, `jnp.argmin` (`0` on the empty
list). -/
def argminIdx : List ℚ → ℕ
  | [] => 0
  | [_] => 0
  | x :: y :: l =>
    let j := argminIdx (y :: l)
    if x ≤ (y :: l).getD j 0 then 0 else j + 1

/-- Embedding of `jnp.argmin(jnp.abs(times - s))`: index of the entry of `times` closest to
`s`, first occurrence winning. -/
def argminAbsIdx (times : List ℚ) (s : ℚ) : ℕ :=
  argminIdx (times.map fun x => |x - s|)

/-- The `times` array built by `ExpmSolver.run` (lines 36–57): for a constant
Hamiltonian, `t0` prepended to the save times (NOT sorted); for a
piecewise-constant Hamiltonian, the sorted concatenation of `t0`, the
breakpoints and the save times; otherwise (a summed Hamiltonian), the sorted
concatenation of `t0`, the discontinuity times and the save times. -/
def expmTimes {n : ℕ} (t0 : ℚ) (ts : List ℚ) : TimeArray n → List ℚ
  | .constant _ => t0 :: ts
  | .pwc times _ => List.insertionSort (· ≤ ·) (t0 :: (times ++ ts))
  | H => List.insertionSort (· ≤ ·) (t0 :: (H.discontinuity_ts ++ ts))

/-- The sub-interval durations of `ExpmSolver.run` (lines 58–60):
`jnp.diff(times)`, with a duration zeroed when the left endpoint of the
sub-interval lies strictly before `t0`. -/
def expmTDiffs (t0 : ℚ) (times : List ℚ) : List ℚ :=
  List.zipWith (fun a b => if a < t0 then 0 else b - a) times times.tail

/-- The per-sub-interval step propagators of `ExpmSolver.run` (lines 63–66):
`expm(-1j * t_diff * H(left endpoint))` for each sub-interval. -/
noncomputable def expmStepPropagators {n : ℕ} (H : TimeArray n) (t0 : ℚ)
    (times : List ℚ) : List (Mat n) :=
  let H_at_ts := times.dropLast.map H.eval
  let Ht := List.zipWith (fun (dt : ℚ) M => (dt : ℂ) • M) (expmTDiffs t0 times) H_at_ts
  Ht.map fun M => expm ((-Complex.I : ℂ) • M)

/-- The save-time lookup of `ExpmSolver.run` (lines 79–84): locate `s` in
`times` by `argmin`, step back one index (propagator indices follow `t_diffs`,
not `times`), and read the scanned cumulative propagator there. -/
noncomputable def expmPropagatorAt {n : ℕ} (propagators_for_times : List (Mat n))
    (times : List ℚ) (s : ℚ) : Mat n :=
  let i := argminAbsIdx times s
  let idx := if 0 < i then i - 1 else i
  propagators_for_times.getD idx 1

/-- Model of `ExpmSolver.run` (lines 36–91): build `times`, the durations, the step
propagators, scan-compose them, and extract one cumulative propagator per save
time. -/
noncomputable def expmRun {n : ℕ} (H : TimeArray n) (t0 : ℚ) (ts : List ℚ) :
    List (Mat n) :=
  let times := expmTimes t0 ts H
  let propagators_for_times := (composeProps (expmStepPropagators H t0 times)).2
  ts.map fun s => expmPropagatorAt propagators_for_times times s

/-- Construction (`__init__`) followed by `run`: the propagators are computed only when the
generator check of `__init__` passed. -/
noncomputable def expmSolverSolve {n : ℕ} (H : TimeArray n) (t0 : ℚ)
    (ts : List ℚ) : Except String (List (Mat n)) :=
  (expmSolverInit H).bind fun _ => Except.ok (expmRun H t0 ts)

/-! ## DiffraxModel — `dynamiqs/integrators/core/diffrax_integrator.py` -/

/-- The Lindblad vector field of `MEDiffraxIntegrator.terms` (lines 230–235),
in its reduced form: `tmp = (-1j*H - 0.5*Σ Lᴴ L) @ rho + 0.5*Σ L @ rho @ Lᴴ`,
returning `tmp + dag(tmp)`. -/
noncomputable def mesolve_vector_field {n : ℕ} (H : Mat n) (Ls : List (Mat n))
    (y : Mat n) : Mat n :=
  ((-Complex.I) • H - (1/2 : ℂ) • (Ls.map fun L => Lᴴ * L).sum) * y
      + (1/2 : ℂ) • (Ls.map fun L => L * y * Lᴴ).sum
    + (((-Complex.I) • H - (1/2 : ℂ) • (Ls.map fun L => Lᴴ * L).sum) * y
      + (1/2 : ℂ) • (Ls.map fun L => L * y * Lᴴ).sum)ᴴ

/-- The naive Lindblad right-hand side, in the words of the spec:
`-i[H, rho] + Σ_k (L_k rho L_k† - ½{L_k†L_k, rho})`. -/
noncomputable def lindblad_rhs {n : ℕ} (H : Mat n) (Ls : List (Mat n))
    (ρ : Mat n) : Mat n :=
  (-Complex.I) • (H * ρ - ρ * H)
    + (Ls.map fun L => L * ρ * Lᴴ - (1/2 : ℂ) • (Lᴴ * L * ρ + ρ * (Lᴴ * L))).sum

/-- The interface `DSMEInterface` is built by `dsmesolve` with the jump operators split into
purely-dissipative channels `Lcs` (`eta == 0`) and measured channels `Lms`
(`eta != 0`). The class itself is not under `src/`; its `Ls` attribute is fixed
by the SME printed in the in-src `dsmesolve` docstring — whose deterministic
(`dt`) part sums the dissipator over all `N` jump operators — and by the
in-src comment calling the deterministic part "`Lcal` the Liouvillian": `Ls`
is the concatenation of both groups. -/
def dsmeLs {n : ℕ} (Lcs Lms : List (Mat n)) : List (Mat n) := Lcs ++ Lms

/-- The density-matrix component of `vector_field_deterministic` in
`DSMEDiffraxIntegrator.terms` (lines 297–304): the reduced Lindblad expression
of `MEDiffraxIntegrator` evaluated over `self.Ls`. -/
noncomputable def dsme_drift_rho {n : ℕ} (H : Mat n) (Lcs Lms : List (Mat n))
    (rho : Mat n) : Mat n :=
  mesolve_vector_field H (dsmeLs Lcs Lms) rho

/-- The drift described by the claim: the commutator term plus the Lindblad
dissipator restricted to the purely-dissipative jump operators (`eta = 0`),
with the measured operators `Lms` absent. -/
noncomputable def claim_drift_rho {n : ℕ} (H : Mat n) (Lcs Lms : List (Mat n))
    (rho : Mat n) : Mat n :=
  lindblad_rhs H Lcs rho

/-- The lowering operator `σ⁻` of a two-level system, a prototypical measured
jump operator. -/
noncomputable def sigmaMinus : Mat 2 := Matrix.of ![![0, 1], ![0, 0]]

/-- The excited-state density matrix `|1⟩⟨1|` of a two-level system. -/
noncomputable def excitedDM : Mat 2 := Matrix.of ![![0, 0], ![0, 1]]

/-! ## OdeintModel — `torchqdynamics/odeint.py` -/

namespace Odeint

/-- The first statement of `check_tsave` evaluates
`isinstance(tsave, (list, np.ndarray))`. The module imports only `warnings`,
`torch` and `.solver`, never `numpy`, so building the tuple raises
`NameError` (name np is not defined) for every argument. -/
def np_ndarray_lookup : Except String Unit :=
  Except.error "NameError: name np is not defined"

/-- The test `tsave.dim != 1` in `check_tsave` compares the bound method `dim`
itself — not the call result `tsave.dim()` — with the integer `1`; a method
object never equals an integer, so the test is `True` for every tensor. -/
def dim_method_ne_one (tsave : List ℚ) : Bool :=
  true

/-- Embedding of `torch.all(torch.diff(tsave) > 0)`. -/
def all_diff_pos (tsave : List ℚ) : Bool :=
  (List.zipWith (fun a b => decide (0 < b - a)) tsave tsave.tail).all id

/-- Model of `check_tsave` (lines 75–86), with the failing `np.ndarray` name lookup made
explicit: resolve `np`, test `tsave.dim != 1 or len(tsave) == 0`, test
sortedness, then return `tsave` unchanged. -/
def check_tsave (tsave : List ℚ) : Except String (List ℚ) :=
  (np_ndarray_lookup).bind fun _ =>
    if dim_method_ne_one tsave || tsave.length == 0 then
      Except.error "Argument tsave should be a non-empty 1-D torch.Tensor."
    else if !(all_diff_pos tsave) then
      Except.error "Argument tsave is not sorted in ascending order or contains duplicate values."
    else
      Except.ok tsave

/-! ### `_fixed_odeint` (lines 45–72) -/

/-- The mutable loop state of `_fixed_odeint`: current time `t`, current step
size `dt` (the loop reassigns `dt` when clipping), current state `y`, the save
counter, and the log of save events — one entry `(save_counter, t, y)` per
assignment `ysave[save_counter] = y`. -/
structure LoopState (Y : Type) where
  t : ℚ
  dt : ℚ
  y : Y
  save_counter : ℕ
  saves : List (ℕ × ℚ × Y)

/-- The clipping `if t + dt > tsave[-1]: dt = tsave[-1] - t` at the top of the
`while` body of `_fixed_odeint`. -/
def clippedDt {Y : Type} (tsave : List ℚ) (s : LoopState Y) : ℚ :=
  if tsave.getLastD 0 < s.t + s.dt then tsave.getLastD 0 - s.t else s.dt

/-- One iteration of the `while` body of `_fixed_odeint`: clip `dt` so as not
to overshoot `tsave[-1]`, advance the state with `qsolver.forward`, advance
`t`, and if `t` has reached or passed `tsave[save_counter]`, record the save
and advance the counter. -/
def fixedOdeintStep {Y : Type} (forward : ℚ → ℚ → Y → Y) (tsave : List ℚ)
    (s : LoopState Y) : LoopState Y :=
  { t := s.t + clippedDt tsave s
    dt := clippedDt tsave s
    y := forward s.t (clippedDt tsave s) s.y
    save_counter :=
      if tsave.getD s.save_counter 0 ≤ s.t + clippedDt tsave s then
        s.save_counter + 1
      else s.save_counter
    saves :=
      if tsave.getD s.save_counter 0 ≤ s.t + clippedDt tsave s then
        s.saves ++ [(s.save_counter, s.t + clippedDt tsave s,
          forward s.t (clippedDt tsave s) s.y)]
      else s.saves }

/-- The `while t < tsave[-1]` loop of `_fixed_odeint`, with explicit fuel. -/
def fixedOdeintLoop {Y : Type} (forward : ℚ → ℚ → Y → Y) (tsave : List ℚ) :
    ℕ → LoopState Y → LoopState Y
  | 0, s => s
  | fuel + 1, s =>
    if s.t < tsave.getLastD 0 then
      fixedOdeintLoop forward tsave fuel (fixedOdeintStep forward tsave s)
    else s

/-- The initialization of `_fixed_odeint` (lines 46–57): `t = 0`, and the
initial state is saved up-front exactly when `tsave[0] == 0`. -/
def fixedOdeintInit {Y : Type} (y0 : Y) (dt0 : ℚ) (tsave : List ℚ) : LoopState Y :=
  if tsave.getD 0 0 = 0 then
    { t := 0, dt := dt0, y := y0, save_counter := 1, saves := [(0, 0, y0)] }
  else
    { t := 0, dt := dt0, y := y0, save_counter := 0, saves := [] }

/-- Model of `_fixed_odeint`: initialization followed by the stepping loop. -/
def fixedOdeint {Y : Type} (forward : ℚ → ℚ → Y → Y) (y0 : Y) (dt0 : ℚ)
    (tsave : List ℚ) (fuel : ℕ) : LoopState Y :=
  fixedOdeintLoop forward tsave fuel (fixedOdeintInit y0 dt0 tsave)

/-- The loop invariant of `_fixed_odeint` under the amended premises: the save
counter is in range, the next pending save time has not yet been reached, the
(possibly clipped) step size stays in `(0, dt0]`, and the save events so far
carry the indices `0, …, save_counter - 1` in order, at strictly increasing
times not beyond the current time; once the counter is exhausted the final
save time has been reached. -/
structure Inv {Y : Type} (dt0 : ℚ) (tsave : List ℚ) (s : LoopState Y) : Prop where
  counter_le : s.save_counter ≤ tsave.length
  not_passed : s.save_counter < tsave.length → s.t < tsave.getD s.save_counter 0
  finished : s.save_counter = tsave.length → tsave.getLastD 0 ≤ s.t
  dt_pos : 0 < s.dt
  dt_le : s.dt ≤ dt0
  saves_idx : s.saves.map (fun e => e.1) = List.range s.save_counter
  saves_mono : (s.saves.map (fun e => e.2.1)).Chain' (· < ·)
  saves_le : ∀ e ∈ s.saves, e.2.1 ≤ s.t

end Odeint

/-! ## SaveModel — `integrators/core/save_mixin.py` and `result.py` (C7) -/

/-- The dynamically-typed `ysave` field of `Saved`: `None` while `save_states`
is off, the stacked trajectory after a `save_states=True` run, or the single
final state put there by `postprocess_saved` after a `save_states=False`
run. -/
inductive YSave (S : Type) where
  | noSave : YSave S
  | states (l : List S) : YSave S
  | final (s : S) : YSave S
deriving DecidableEq

/-- Model of `SaveMixin.save` (`save_mixin.py`, lines 14–17): at each save time keep the
state only when `options.save_states` is set. -/
def mixinSave {S : Type} (save_states : Bool) (y : S) : Option S :=
  if save_states then some y else none

/-- Model of `SaveMixin.postprocess_saved` (`save_mixin.py`, lines 19–25): when
`save_states` is off, replace `ysave` by the final state `ylast`. -/
def postprocess_saved {S : Type} (save_states : Bool) (saved : YSave S)
    (ylast : S) : YSave S :=
  if save_states then saved else YSave.final ylast

/-- The `ysave` produced by `DiffraxIntegrator.run` (lines 52–94) for the
solution flow `sol`: the per-save-time saves from `SubSaveAt(ts=self.ts)`
(kept only under `save_states`, per `SaveMixin.save`), postprocessed with the
final state from `SubSaveAt(t1=True)`; the integration ends at the final save
time (`t1 = tsave[-1]`, per the in-src `dsmesolve` docstring: "The equation is
solved from `tsave[0]` to `tsave[-1]`"). -/
def runYsave {S : Type} (save_states : Bool) (sol : ℚ → S) (ts : List ℚ) :
    YSave S :=
  postprocess_saved save_states
    (if save_states then YSave.states (ts.map sol) else YSave.noSave)
    (sol (ts.getLastD 0))

/-- Model of `Result.final_state` (`result.py`, lines 67–72): under `save_states`,
index the last entry of the time axis (an indexing error when `ysave` is not a
stacked trajectory); otherwise return `ysave` as it stands. -/
def final_state {S : Type} (save_states : Bool) (ysave : YSave S) :
    Except String (YSave S) :=
  if save_states then
    match ysave with
    | YSave.states l =>
      match l.getLast? with
      | some s => Except.ok (YSave.final s)
      | none => Except.error "index -1 is out of bounds for the time axis"
    | _ => Except.error "ysave has no time axis to index"
  else Except.ok ysave

/-! ## DsmesolveModel — measurement records (C5) and Cartesian batching (C9) -/

/-- The integrated-signal component saved by `DSMEDiffraxIntegrator.saveat`
(lines 253–262): `SubSaveAt(ts=self.tmeas, fn = (t, y, args) ↦ y.Y)` records
the signal `Y` at each measurement time. `tmeas` itself is not under `src/`;
per the in-src `dsmesolve` docstring the averaging intervals are those defined
by `tsave`, so the measurement times are the save times. -/
def dsmeYsave {K : Type} (solY : ℚ → K → ℚ) (tsave : List ℚ) : List (K → ℚ) :=
  tsave.map solY

/-- Modelled from the spec: the postprocessing that turns the integrated
signal into the returned measurement record is not under `src/` (only the
saving and axis-reordering mixin is); the spec — and the in-src `dsmesolve`
docstring — define the record over a save interval as
`I^[t0,t1) = (Y(t1) - Y(t0)) / (t1 - t0)`, over each pair of consecutive save
times, per monitored operator `k`. -/
def measurementRecords {K : Type} (tsave : List ℚ) (Ys : List (K → ℚ)) :
    List (K → ℚ) :=
  List.zipWith (fun a b k => (b.2 k - a.2 k) / (b.1 - a.1))
    (tsave.zip Ys) ((tsave.zip Ys).tail)

/-- Modelled from the spec: `_cartesian_vectorize` (imported by `dsmesolve.py`
from `.._utils`, which is not under `src/`) maps the single-trajectory
function over every combination of the batched-Hamiltonian axis and the
batched-initial-state axis (outer-product semantics), the leading axes of
the output concatenating the input batch axes. -/
def cartesian_vectorize {A B C : Type} (f : A → B → C) (Hs : List A)
    (ys : List B) : List (List C) :=
  Hs.map fun h => ys.map fun y => f h y

/-! ## Theorems -/

theorem scan_reduceProp_carry {n : ℕ} (c : Mat n) (ps : List (Mat n)) :
    (scan reduceProp c ps).1 = ps.reverse.prod * c := by
  induction ps generalizing c with
  | nil => simp [scan]
  | cons p ps ih =>
    simp only [scan, reduceProp, ih, List.reverse_cons, List.prod_append,
      List.prod_cons, List.prod_nil]
    noncomm_ring

theorem scan_reduceProp_last {n : ℕ} (c : Mat n) (ps : List (Mat n)) :
    (scan reduceProp c ps).2.getLastD c = ps.reverse.prod * c := by
  induction ps generalizing c with
  | nil => simp [scan]
  | cons p ps ih =>
    simp only [scan, reduceProp, List.getLastD_cons, ih, List.reverse_cons,
      List.prod_append, List.prod_cons, List.prod_nil]
    noncomm_ring

/-- C1: for the matrix-exponential step method, the total propagator over the
partition into maximal constant sub-intervals is the ordered matrix product of
the per-sub-interval propagators, later propagators applied on the left: for
step propagators `P_1, …, P_n` (in increasing time order), the scan carried out
by `ExpmSolver.run` composes them to `P_n * ⋯ * P_1`, both in its final carry
and in the last entry of the per-step outputs. -/
theorem expm_scan_composes_right_to_left {n : ℕ} (ps : List (Mat n)) :
    (composeProps ps).1 = ps.reverse.prod ∧
      (composeProps ps).2.getLastD 1 = ps.reverse.prod := by
  refine ⟨?_, ?_⟩
  · simpa using scan_reduceProp_carry 1 ps
  · simpa using scan_reduceProp_last 1 ps

theorem isConstantOrPWC_iff {n : ℕ} (ta : TimeArray n) :
    isConstantOrPWC ta = true ↔
      (∃ M, ta = TimeArray.constant M) ∨ ∃ bts f, ta = TimeArray.pwc bts f := by
  cases ta <;> simp [isConstantOrPWC]

theorem constant_or_pwc_check_iff {n : ℕ} (H : TimeArray n) :
    constant_or_pwc_check H = true ↔ ClaimConstantPwcOrSum H := by
  cases H <;>
    simp [constant_or_pwc_check, ClaimConstantPwcOrSum, List.all_eq_true,
      isConstantOrPWC_iff]

/-- C6: constructing the matrix-exponential solver raises a usage error,
before any propagator is computed, exactly when the generator is neither
constant, nor piecewise-constant, nor a sum whose every summand is constant or
piecewise-constant; for such generators no error is raised. -/
theorem expm_solver_generator_check {n : ℕ} (H : TimeArray n) (t0 : ℚ)
    (ts : List ℚ) :
    (¬ ClaimConstantPwcOrSum H → expmSolverSolve H t0 ts = Except.error expmCheckErr) ∧
      (ClaimConstantPwcOrSum H → expmSolverSolve H t0 ts = Except.ok (expmRun H t0 ts)) := by
  constructor
  · intro hbad
    rw [← constant_or_pwc_check_iff] at hbad
    simp only [expmSolverSolve, expmSolverInit, Bool.not_eq_true] at hbad ⊢
    rw [hbad]
    rfl
  · intro hgood
    rw [← constant_or_pwc_check_iff] at hgood
    simp only [expmSolverSolve, expmSolverInit]
    rw [hgood]
    rfl

/-- Witness for C6: a callable (arbitrary time-dependent) generator is rejected
without computing anything, and a constant generator is accepted. -/
theorem expm_solver_generator_check_witness :
    (¬ ClaimConstantPwcOrSum (TimeArray.callable fun _ => (0 : Mat 1)) ∧
      expmSolverSolve (TimeArray.callable fun _ => (0 : Mat 1)) 0 [1] =
        Except.error expmCheckErr) ∧
    (ClaimConstantPwcOrSum (TimeArray.constant (0 : Mat 1)) ∧
      expmSolverSolve (TimeArray.constant (0 : Mat 1)) 0 [1] =
        Except.ok (expmRun (TimeArray.constant (0 : Mat 1)) 0 [1])) := by
  have hbad : ¬ ClaimConstantPwcOrSum (TimeArray.callable fun _ => (0 : Mat 1)) := by
    simp [ClaimConstantPwcOrSum]
  have hgood : ClaimConstantPwcOrSum (TimeArray.constant (0 : Mat 1)) :=
    Or.inl ⟨0, rfl⟩
  exact ⟨⟨hbad, (expm_solver_generator_check _ 0 [1]).1 hbad⟩,
    ⟨hgood, (expm_solver_generator_check _ 0 [1]).2 hgood⟩⟩

theorem expm_smul_zero_eq_one {n : ℕ} (M : Mat n) :
    expm ((-Complex.I : ℂ) • (((0 : ℚ) : ℂ) • M)) = 1 := by
  simp [expm, NormedSpace.exp_zero]

theorem expm_neg_one_smul_diag_pi :
    expm ((-Complex.I : ℂ) • (((-1 : ℚ) : ℂ) • Matrix.diagonal ![(Real.pi : ℂ)]))
      = Matrix.diagonal ![(-1 : ℂ)] := by
  have hc : ((-Complex.I : ℂ) * ((-1 : ℚ) : ℂ)) = Complex.I := by
    push_cast
    ring
  have h1 : ((-Complex.I : ℂ) • (((-1 : ℚ) : ℂ) • Matrix.diagonal ![(Real.pi : ℂ)]))
      = Matrix.diagonal ![(Real.pi : ℂ) * Complex.I] := by
    rw [smul_smul, hc, ← Matrix.diagonal_smul]
    funext i
    fin_cases i
    simp [mul_comm]
  have hv : NormedSpace.exp ℂ (![(Real.pi : ℂ) * Complex.I]) = ![(-1 : ℂ)] := by
    funext i
    fin_cases i
    rw [Pi.coe_exp]
    norm_num
    rw [← Complex.exp_eq_exp_ℂ, Complex.exp_pi_mul_I]
  rw [expm, h1, Matrix.exp_diagonal, hv]

/-- C10 (evaluation at the failing input): in the constant-Hamiltonian
branch of `ExpmSolver.run`, the `times` array `[t0] ++ ts` is not sorted when a
save time precedes `t0`. For `H = diag(π)`, `t0 = 1` and save times `[0, 2]`,
the sub-interval `[1, 0]` has left endpoint `1` (not `< t0`), so its duration
`-1` is not zeroed, and the propagator returned for the save time `0 ≤ t0` is
`exp(iπ) = -1` — not the identity, contradicting the claim. -/
theorem expm_run_save_time_before_t0_not_identity :
    expmRun (TimeArray.constant (Matrix.diagonal ![(Real.pi : ℂ)])) 1 [0, 2]
        = [Matrix.diagonal ![(-1 : ℂ)], Matrix.diagonal ![(-1 : ℂ)]] ∧
      Matrix.diagonal ![(-1 : ℂ)] ≠ (1 : Mat 1) := by
  constructor
  · have htimes : expmTimes (n := 1) 1 [0, 2]
        (TimeArray.constant (Matrix.diagonal ![(Real.pi : ℂ)])) = [1, 0, 2] := rfl
    have hdiffs : expmTDiffs 1 [1, 0, 2] = [-1, 0] := by
      simp only [expmTDiffs, List.tail_cons, List.zipWith_cons_cons,
        List.zipWith_nil_right]
      norm_num
    have hsteps : expmStepPropagators
        (TimeArray.constant (Matrix.diagonal ![(Real.pi : ℂ)])) 1 [1, 0, 2]
        = [Matrix.diagonal ![(-1 : ℂ)], 1] := by
      simp only [expmStepPropagators, hdiffs, List.dropLast, TimeArray.eval,
        List.map_cons, List.map_nil, List.zipWith_cons_cons, List.zipWith_nil_right]
      rw [expm_neg_one_smul_diag_pi, expm_smul_zero_eq_one]
    have hargmin0 : argminAbsIdx [1, 0, 2] 0 = 1 := by
      norm_num [argminAbsIdx, argminIdx, List.getD]
    have hargmin2 : argminAbsIdx [1, 0, 2] 2 = 2 := by
      norm_num [argminAbsIdx, argminIdx, List.getD]
    unfold expmRun
    rw [htimes]
    simp only [hsteps]
    simp only [composeProps, scan, reduceProp, List.map_cons, List.map_nil,
      expmPropagatorAt, hargmin0, hargmin2]
    norm_num [List.getD]
  · intro h
    have h00 := congrFun (congrFun h 0) 0
    simp [Matrix.diagonal_apply, Matrix.one_apply] at h00
    have : ((-1 : ℂ)) ≠ 1 := by norm_num
    exact this h00

/-! ## Theorems about the Lindblad vector fields (C2, C4) -/

theorem sum_map_conjTranspose {n : ℕ} (Ls : List (Mat n)) (f : Mat n → Mat n) :
    ((Ls.map f).sum)ᴴ = (Ls.map fun L => (f L)ᴴ).sum := by
  induction Ls with
  | nil => simp
  | cons L Ls ih => simp [ih]

theorem dissipator_sum {n : ℕ} (Ls : List (Mat n)) (ρ : Mat n) :
    (Ls.map fun L => L * ρ * Lᴴ - (1/2 : ℂ) • (Lᴴ * L * ρ + ρ * (Lᴴ * L))).sum
      = (Ls.map fun L => L * ρ * Lᴴ).sum
        - (1/2 : ℂ) • ((Ls.map fun L => Lᴴ * L).sum * ρ
            + ρ * (Ls.map fun L => Lᴴ * L).sum) := by
  induction Ls with
  | nil => simp
  | cons L Ls ih =>
    rw [List.map_cons, List.sum_cons, List.map_cons, List.sum_cons,
      List.map_cons, List.sum_cons, ih]
    simp only [add_mul, mul_add, smul_add]
    abel

theorem reduced_eq_lindblad_of_hermitian {n : ℕ} {H ρ : Mat n} (Ls : List (Mat n))
    (hH : Hᴴ = H) (hρ : ρᴴ = ρ) :
    mesolve_vector_field H Ls ρ = lindblad_rhs H Ls ρ := by
  unfold mesolve_vector_field lindblad_rhs
  have hSH : ((Ls.map fun L => Lᴴ * L).sum)ᴴ = (Ls.map fun L => Lᴴ * L).sum := by
    rw [sum_map_conjTranspose]
    simp [Matrix.conjTranspose_mul]
  have hTH : ((Ls.map fun L => L * ρ * Lᴴ).sum)ᴴ
      = (Ls.map fun L => L * ρ * Lᴴ).sum := by
    rw [sum_map_conjTranspose]
    simp [Matrix.conjTranspose_mul, hρ, Matrix.mul_assoc]
  rw [dissipator_sum]
  have hc2 : star ((1:ℂ)/2) = 1/2 := by
    rw [show ((1:ℂ)/2) = (((1:ℝ)/2 : ℝ) : ℂ) by norm_num]
    rw [Complex.star_def, Complex.conj_ofReal]
  have hcI : star (-Complex.I) = Complex.I := by
    simp
  simp only [Matrix.conjTranspose_add, Matrix.conjTranspose_smul,
    Matrix.conjTranspose_mul, Matrix.conjTranspose_sub, hSH, hTH, hH, hρ,
    Matrix.sub_mul, Matrix.add_mul, Matrix.mul_add, Matrix.mul_sub,
    smul_mul_assoc, mul_smul_comm, smul_add, smul_sub, smul_smul, hc2, hcI]
  module

/-- C2 (counterexample): for the non-Hermitian matrix `H = i·1` supplied as
the Hamiltonian, with the Hermitian state `ρ = 1` and no jump operators, the
reduced form computed by the code differs from the naive Lindblad right-hand
side (the former is `2·1`, the latter `0`): the claimed equivalence for every
Hamiltonian matrix fails. -/
theorem mesolve_identity_fails_for_nonhermitian_H :
    (1 : Mat 1)ᴴ = 1 ∧
      mesolve_vector_field (Complex.I • (1 : Mat 1)) [] 1
        ≠ lindblad_rhs (Complex.I • (1 : Mat 1)) [] 1 := by
  refine ⟨Matrix.conjTranspose_one, ?_⟩
  intro h
  have h00 := congrFun (congrFun h 0) 0
  simp [mesolve_vector_field, lindblad_rhs, Matrix.mul_apply, Matrix.one_apply,
    Fin.sum_univ_one, Matrix.conjTranspose_apply] at h00

/-- C2 (amended): for every Hermitian `ρ`, every **Hermitian** `H` and
every list of jump operators, the reduced form
`(-iH - ½ Σ L†L) ρ + ½ Σ L ρ L†` plus its Hermitian conjugate equals the naive
Lindblad right-hand side `-i[H,ρ] + Σ (LρL† - ½{L†L,ρ})` in exact
arithmetic. -/
theorem mesolve_reduced_equals_naive {n : ℕ} (H : Mat n) (Ls : List (Mat n))
    (ρ : Mat n) (hH : H.IsHermitian) (hρ : ρ.IsHermitian) :
    mesolve_vector_field H Ls ρ = lindblad_rhs H Ls ρ :=
  reduced_eq_lindblad_of_hermitian Ls hH.eq hρ.eq

/-- Witness for the amended C2 at `H = 0`, `ρ = 1`, no jump operators. -/
theorem mesolve_reduced_equals_naive_witness :
    ((0 : Mat 1).IsHermitian ∧ (1 : Mat 1).IsHermitian) ∧
      mesolve_vector_field (0 : Mat 1) [] 1 = lindblad_rhs (0 : Mat 1) [] 1 :=
  ⟨⟨Matrix.isHermitian_zero, Matrix.isHermitian_one⟩,
    mesolve_reduced_equals_naive 0 [] 1 Matrix.isHermitian_zero
      Matrix.isHermitian_one⟩

/-- C4 (counterexample): with `H = 0`, no purely-dissipative operator, and
the single measured operator `σ⁻` (efficiency `eta = 1`), the deterministic
drift computed by the code on the excited state is the full dissipator
`D[σ⁻]` — nonzero — while the drift described by the claim (dissipator
restricted to the `eta = 0` operators) is zero: measured operators do appear
in the dissipator sum of the drift. -/
theorem dsme_drift_includes_measured_ops :
    dsme_drift_rho 0 [] [sigmaMinus] excitedDM
      ≠ claim_drift_rho 0 [] [sigmaMinus] excitedDM := by
  intro h
  have h00 := congrFun (congrFun h 0) 0
  simp [dsme_drift_rho, dsmeLs, claim_drift_rho, lindblad_rhs,
    mesolve_vector_field, sigmaMinus, excitedDM, Matrix.mul_apply,
    Matrix.conjTranspose_apply, Matrix.vecMul, Matrix.dotProduct,
    Fin.sum_univ_two] at h00

/-- C4 (amended): for Hermitian `H` and `ρ`, the deterministic drift of the
diffusive-SME step method is the unitary commutator term plus the Lindblad
dissipator summed over **all** jump operators — the purely-dissipative ones
and the measured ones together. -/
theorem dsme_drift_is_full_liouvillian {n : ℕ} (H : Mat n)
    (Lcs Lms : List (Mat n)) (ρ : Mat n) (hH : H.IsHermitian)
    (hρ : ρ.IsHermitian) :
    dsme_drift_rho H Lcs Lms ρ = lindblad_rhs H (Lcs ++ Lms) ρ :=
  reduced_eq_lindblad_of_hermitian (Lcs ++ Lms) hH.eq hρ.eq

/-- Witness for the amended C4 at `H = 0`, `ρ = 1`, one measured operator
`σ⁻` and no dissipative operator. -/
theorem dsme_drift_is_full_liouvillian_witness :
    ((0 : Mat 2).IsHermitian ∧ (1 : Mat 2).IsHermitian) ∧
      dsme_drift_rho (0 : Mat 2) [] [sigmaMinus] 1
        = lindblad_rhs (0 : Mat 2) ([] ++ [sigmaMinus]) 1 :=
  ⟨⟨Matrix.isHermitian_zero, Matrix.isHermitian_one⟩,
    dsme_drift_is_full_liouvillian 0 [] [sigmaMinus] 1 Matrix.isHermitian_zero
      Matrix.isHermitian_one⟩

namespace Odeint

/-- C8 (evaluation at the failing input): `check_tsave` rejects even a
non-empty strictly increasing save-time sequence — the `numpy` name lookup
raises before any test runs, and even with `numpy` imported the
`tsave.dim != 1` test is true of every tensor — so acceptance is not
equivalent to "non-empty and strictly increasing", contradicting the claim. -/
theorem check_tsave_rejects_valid_input :
    check_tsave [0, 1/2, 1] = Except.error "NameError: name np is not defined" ∧
      all_diff_pos [0, 1/2, 1] = true ∧ (0 : ℕ) < ([0, 1/2, 1] : List ℚ).length := by
  refine ⟨rfl, ?_, by norm_num⟩
  simp only [all_diff_pos, List.tail_cons, List.zipWith_cons_cons,
    List.zipWith_nil_right, List.all_cons, List.all_nil, id_eq, Bool.and_true,
    Bool.and_eq_true, decide_eq_true_eq]
  norm_num

theorem getLastD_eq_getD {l : List ℚ} :
    l.getLastD 0 = l.getD (l.length - 1) 0 := by
  rw [List.getLastD_eq_getLast?, List.getLast?_eq_getElem?, List.getD_eq_getElem?_getD]

theorem getD_lt_getD {l : List ℚ} (hlt : l.Chain' (· < ·)) {i j : ℕ}
    (hij : i < j) (hj : j < l.length) : l.getD i 0 < l.getD j 0 := by
  have hp : l.Pairwise (· < ·) := List.chain'_iff_pairwise.mp hlt
  have h := List.pairwise_iff_get.mp hp ⟨i, lt_trans hij hj⟩ ⟨j, hj⟩
    (Fin.mk_lt_mk.mpr hij)
  rw [List.getD_eq_getElem _ _ (lt_trans hij hj), List.getD_eq_getElem _ _ hj]
  simpa using h

theorem getD_le_getLastD {l : List ℚ} (hne : l ≠ []) (hlt : l.Chain' (· < ·))
    {i : ℕ} (hi : i < l.length) : l.getD i 0 ≤ l.getLastD 0 := by
  have hlen : 0 < l.length := List.length_pos.mpr hne
  rw [getLastD_eq_getD]
  rcases lt_or_eq_of_le (by omega : i ≤ l.length - 1) with h | h
  · exact le_of_lt (getD_lt_getD hlt h (by omega))
  · rw [h]

theorem getD_gap {dt0 : ℚ} {l : List ℚ} (hgap : l.Chain' (fun a b => a + dt0 ≤ b))
    {i : ℕ} (hi : i + 1 < l.length) : l.getD i 0 + dt0 ≤ l.getD (i + 1) 0 := by
  have h := List.chain'_iff_get.mp hgap i (by omega)
  rw [List.getD_eq_getElem _ _ (by omega), List.getD_eq_getElem _ _ hi]
  simpa using h

theorem chain_lt_of_gap {dt0 : ℚ} (hdt : 0 < dt0) {l : List ℚ}
    (hgap : l.Chain' (fun a b => a + dt0 ≤ b)) : l.Chain' (· < ·) :=
  hgap.imp fun a b h => lt_of_lt_of_le (lt_add_of_pos_right a hdt) h

theorem inv_terminal {Y : Type} {dt0 : ℚ} {tsave : List ℚ} (hne : tsave ≠ [])
    (hdt : 0 < dt0) (hgap : tsave.Chain' (fun a b => a + dt0 ≤ b))
    {s : LoopState Y} (hs : Inv dt0 tsave s) (hT : tsave.getLastD 0 ≤ s.t) :
    s.save_counter = tsave.length := by
  rcases lt_or_eq_of_le hs.counter_le with h | h
  · have h2 := hs.not_passed h
    have h3 := getD_le_getLastD hne (chain_lt_of_gap hdt hgap) h
    linarith
  · exact h

theorem inv_step {Y : Type} (forward : ℚ → ℚ → Y → Y) {dt0 : ℚ} {tsave : List ℚ}
    (hne : tsave ≠ []) (hdt : 0 < dt0)
    (hgap : tsave.Chain' (fun a b => a + dt0 ≤ b))
    {s : LoopState Y} (hs : Inv dt0 tsave s) (hrun : s.t < tsave.getLastD 0) :
    Inv dt0 tsave (fixedOdeintStep forward tsave s) ∧
      (fixedOdeintStep forward tsave s).t = s.t + (fixedOdeintStep forward tsave s).dt ∧
      ((fixedOdeintStep forward tsave s).dt = s.dt ∨
        (fixedOdeintStep forward tsave s).t = tsave.getLastD 0) := by
  have hcount : s.save_counter < tsave.length := by
    rcases lt_or_eq_of_le hs.counter_le with h | h
    · exact h
    · exact absurd (hs.finished h) (not_le.mpr hrun)
  have hnp := hs.not_passed hcount
  have hdtv_pos : 0 < clippedDt tsave s := by
    unfold clippedDt
    split_ifs with h
    · linarith
    · exact hs.dt_pos
  have hdtv_le : clippedDt tsave s ≤ dt0 := by
    unfold clippedDt
    split_ifs with h
    · linarith [hs.dt_le]
    · exact hs.dt_le
  have hcases : clippedDt tsave s = s.dt ∨ s.t + clippedDt tsave s = tsave.getLastD 0 := by
    unfold clippedDt
    split_ifs with h
    · right; ring
    · left; rfl
  refine ⟨?_, by simp [fixedOdeintStep], ?_⟩
  swap
  · rcases hcases with h | h
    · left; simpa [fixedOdeintStep] using h
    · right; simpa [fixedOdeintStep] using h
  by_cases hsv : tsave.getD s.save_counter 0 ≤ s.t + clippedDt tsave s
  · -- the step reaches or passes the pending save time: a save is recorded
    refine
      { counter_le := ?_, not_passed := ?_, finished := ?_, dt_pos := ?_,
        dt_le := ?_, saves_idx := ?_, saves_mono := ?_, saves_le := ?_ } <;>
      simp only [fixedOdeintStep, if_pos hsv]
    · exact Nat.succ_le_of_lt hcount
    · intro h1
      have hga := getD_gap hgap h1
      have : s.t + clippedDt tsave s ≤ s.t + dt0 := by linarith
      linarith
    · intro h1
      have hlast : tsave.getLastD 0 = tsave.getD s.save_counter 0 := by
        rw [getLastD_eq_getD]
        congr 1
        omega
      linarith [hsv, hlast.ge]
    · exact hdtv_pos
    · exact hdtv_le
    · simp [hs.saves_idx, List.range_succ]
    · rw [List.map_append]
      rw [List.chain'_append]
      refine ⟨hs.saves_mono, by simp, ?_⟩
      intro x hx y hy
      simp only [List.map_cons, List.map_nil, List.head?_cons, Option.mem_def,
        Option.some.injEq] at hy
      subst hy
      rw [List.getLast?_map] at hx
      simp only [Option.mem_def, Option.map_eq_some'] at hx
      obtain ⟨e, he, rfl⟩ := hx
      have hmem : e ∈ s.saves := by
        obtain ⟨hne', rfl⟩ := List.mem_getLast?_eq_getLast he
        exact List.getLast_mem hne'
      have := hs.saves_le e hmem
      linarith
    · intro e he
      rcases List.mem_append.mp he with h | h
      · have := hs.saves_le e h
        linarith
      · simp only [List.mem_singleton] at h
        subst h
        simp
  · -- the pending save time is not yet reached: no save
    refine
      { counter_le := ?_, not_passed := ?_, finished := ?_, dt_pos := ?_,
        dt_le := ?_, saves_idx := ?_, saves_mono := ?_, saves_le := ?_ } <;>
      simp only [fixedOdeintStep, if_neg hsv]
    · exact hs.counter_le
    · intro _
      linarith [not_le.mp hsv]
    · intro h1
      exact absurd h1 (Nat.ne_of_lt hcount)
    · exact hdtv_pos
    · exact hdtv_le
    · exact hs.saves_idx
    · exact hs.saves_mono
    · intro e he
      have := hs.saves_le e he
      linarith

theorem inv_loop {Y : Type} (forward : ℚ → ℚ → Y → Y) {dt0 : ℚ} {tsave : List ℚ}
    (hne : tsave ≠ []) (hdt : 0 < dt0)
    (hgap : tsave.Chain' (fun a b => a + dt0 ≤ b)) (fuel : ℕ) :
    ∀ s : LoopState Y, Inv dt0 tsave s →
      tsave.getLastD 0 ≤ s.t + (fuel : ℚ) * s.dt →
      Inv dt0 tsave (fixedOdeintLoop forward tsave fuel s) ∧
        (fixedOdeintLoop forward tsave fuel s).save_counter = tsave.length := by
  induction fuel with
  | zero =>
    intro s hs hfuel
    simp only [Nat.cast_zero, zero_mul, add_zero] at hfuel
    simp only [fixedOdeintLoop]
    exact ⟨hs, inv_terminal hne hdt hgap hs hfuel⟩
  | succ fuel ih =>
    intro s hs hfuel
    simp only [fixedOdeintLoop]
    split_ifs with hrun
    · obtain ⟨hinv, ht', hdtc⟩ := inv_step forward hne hdt hgap hs hrun
      refine ih _ hinv ?_
      rcases hdtc with h | h
      · rw [ht', h]
        push_cast at hfuel ⊢
        linarith
      · rw [h]
        have h1 := hinv.dt_pos
        have h2 : (0 : ℚ) ≤ (fuel : ℚ) * (fixedOdeintStep forward tsave s).dt :=
          mul_nonneg (Nat.cast_nonneg fuel) (le_of_lt h1)
        linarith
    · exact ⟨hs, inv_terminal hne hdt hgap hs (not_lt.mp hrun)⟩

theorem inv_init {Y : Type} (y0 : Y) {dt0 : ℚ} {tsave : List ℚ}
    (hne : tsave ≠ []) (hdt : 0 < dt0) (h0 : 0 ≤ tsave.getD 0 0)
    (hgap : tsave.Chain' (fun a b => a + dt0 ≤ b)) :
    Inv dt0 tsave (fixedOdeintInit y0 dt0 tsave) := by
  have hlen : 0 < tsave.length := List.length_pos.mpr hne
  unfold fixedOdeintInit
  split_ifs with h0eq
  · refine
      { counter_le := hlen, not_passed := ?_, finished := ?_, dt_pos := hdt,
        dt_le := le_refl dt0, saves_idx := rfl, saves_mono := by simp,
        saves_le := by simp }
    · intro h1
      have h1' : 1 < tsave.length := h1
      have hga := getD_gap (i := 0) hgap h1'
      rw [h0eq] at hga
      show (0 : ℚ) < tsave.getD 1 0
      linarith
    · intro h1
      have h1' : 1 = tsave.length := h1
      show tsave.getLastD 0 ≤ (0 : ℚ)
      rw [getLastD_eq_getD, show tsave.length - 1 = 0 by omega, h0eq]
  · refine
      { counter_le := Nat.zero_le _, not_passed := ?_, finished := ?_,
        dt_pos := hdt, dt_le := le_refl dt0, saves_idx := by simp,
        saves_mono := by simp, saves_le := by simp }
    · intro _
      exact lt_of_le_of_ne h0 (Ne.symm h0eq)
    · intro h1
      have h1' : tsave.length = 0 := h1.symm
      exact absurd (List.length_eq_zero.mp h1') hne

/-- C3 (amended): for a non-empty save-time sequence whose consecutive
gaps are at least the fixed step `dt`, a non-negative first save time, a
positive step, and enough loop iterations to reach the final save time, the
fixed-step loop records a saved state exactly once for each requested save
time — the recorded indices are `0, …, len(tsave) - 1` in order — in strictly
increasing time order, saving whenever a step reaches or passes the next
pending save time. -/
theorem fixed_odeint_saves_each_time_once {Y : Type} (forward : ℚ → ℚ → Y → Y)
    (y0 : Y) (dt0 : ℚ) (tsave : List ℚ) (fuel : ℕ)
    (hne : tsave ≠ []) (hdt : 0 < dt0) (h0 : 0 ≤ tsave.getD 0 0)
    (hgap : tsave.Chain' (fun a b => a + dt0 ≤ b))
    (hfuel : tsave.getLastD 0 ≤ (fuel : ℚ) * dt0) :
    (fixedOdeint forward y0 dt0 tsave fuel).save_counter = tsave.length ∧
      (fixedOdeint forward y0 dt0 tsave fuel).saves.map (fun e => e.1)
        = List.range tsave.length ∧
      ((fixedOdeint forward y0 dt0 tsave fuel).saves.map (fun e => e.2.1)).Chain'
        (· < ·) := by
  simp only [fixedOdeint]
  have hinv0 := inv_init y0 hne hdt h0 hgap
  have hfuel0 : tsave.getLastD 0 ≤
      (fixedOdeintInit y0 dt0 tsave).t + (fuel : ℚ) * (fixedOdeintInit y0 dt0 tsave).dt := by
    unfold fixedOdeintInit
    split_ifs <;> simpa using hfuel
  obtain ⟨hinv, hc⟩ := inv_loop forward hne hdt hgap fuel _ hinv0 hfuel0
  refine ⟨hc, ?_, hinv.saves_mono⟩
  rw [hinv.saves_idx, hc]

/-- C3 (counterexample): with save times `[2/5, 1/2, 1]` and fixed step
`dt = 1` (a non-empty strictly increasing sequence and a positive step), a
single step jumps from `t = 0` to `t = 1`, crossing all three save times, but
the loop records only one save and then exits, because its guard is
`t < tsave[-1]`, not the exhaustion of the save times: the promise of exactly
one save for each requested save time fails. -/
theorem fixed_odeint_misses_save_times :
    fixedOdeint (fun _ _ y => y) (0 : ℚ) 1 [2/5, 1/2, 1] 3 =
        { t := 1, dt := 1, y := 0, save_counter := 1, saves := [(0, 1, 0)] } ∧
      ([((0 : ℕ), (1 : ℚ), (0 : ℚ))].map (fun e => e.1) ≠
        List.range ([2/5, 1/2, 1] : List ℚ).length) := by
  constructor
  · norm_num [fixedOdeint, fixedOdeintInit, fixedOdeintLoop, fixedOdeintStep,
      clippedDt, List.getD, List.getLastD]
  · intro h
    have := congrArg List.length h
    simp at this

/-- Witness for the amended C3: save times `[0, 1, 2]`, `dt = 1/2`, four loop
iterations; every hypothesis holds and all three saves are recorded in
order. -/
theorem fixed_odeint_saves_each_time_once_witness :
    (([0, 1, 2] : List ℚ) ≠ [] ∧ (0 : ℚ) < 1/2 ∧
      (0 : ℚ) ≤ ([0, 1, 2] : List ℚ).getD 0 0 ∧
      ([0, 1, 2] : List ℚ).Chain' (fun a b => a + 1/2 ≤ b) ∧
      ([0, 1, 2] : List ℚ).getLastD 0 ≤ ((4 : ℕ) : ℚ) * (1/2)) ∧
    ((fixedOdeint (fun _ _ y => y) (0 : ℚ) (1/2) [0, 1, 2] 4).save_counter
        = ([0, 1, 2] : List ℚ).length ∧
      (fixedOdeint (fun _ _ y => y) (0 : ℚ) (1/2) [0, 1, 2] 4).saves.map (fun e => e.1)
        = List.range ([0, 1, 2] : List ℚ).length ∧
      ((fixedOdeint (fun _ _ y => y) (0 : ℚ) (1/2) [0, 1, 2] 4).saves.map
        (fun e => e.2.1)).Chain' (· < ·)) := by
  have h1 : (([0, 1, 2] : List ℚ)) ≠ [] := by simp
  have h2 : (0 : ℚ) < 1/2 := by norm_num
  have h3 : (0 : ℚ) ≤ ([0, 1, 2] : List ℚ).getD 0 0 := by norm_num [List.getD]
  have h4 : ([0, 1, 2] : List ℚ).Chain' (fun a b => a + 1/2 ≤ b) := by
    norm_num [List.chain'_cons]
  have h5 : ([0, 1, 2] : List ℚ).getLastD 0 ≤ ((4 : ℕ) : ℚ) * (1/2) := by
    norm_num [List.getLastD]
  exact ⟨⟨h1, h2, h3, h4, h5⟩,
    fixed_odeint_saves_each_time_once (fun _ _ y => y) (0 : ℚ) (1/2) [0, 1, 2] 4
      h1 h2 h3 h4 h5⟩

end Odeint

/-! ## Theorems for C7, C5, C9 -/

/-- C7: a `save_states=False` run followed by `final_state` extraction
yields exactly the last element along the time axis of the
saved trajectory of the `save_states=True` run (all else equal): the latter
saves the trajectory `sol` at each save time, and both extractions agree on
its last element. -/
theorem final_state_roundtrip {S : Type} (sol : ℚ → S) (ts : List ℚ) (s : S)
    (h : (ts.map sol).getLast? = some s) :
    runYsave true sol ts = YSave.states (ts.map sol) ∧
      final_state false (runYsave false sol ts) = Except.ok (YSave.final s) ∧
      final_state true (runYsave true sol ts) = Except.ok (YSave.final s) := by
  have h' := h
  rw [List.getLast?_map, Option.map_eq_some'] at h'
  obtain ⟨t0, ht0, hs⟩ := h'
  have hlastD : ts.getLastD 0 = t0 := by
    rw [List.getLastD_eq_getLast?, ht0]
    rfl
  refine ⟨by simp [runYsave, postprocess_saved], ?_, ?_⟩
  · simp [runYsave, postprocess_saved, final_state, ht0, hs]
  · simp [runYsave, postprocess_saved, final_state, h]

/-- Witness for C7 with `sol = id` and save times `[0, 1]`. -/
theorem final_state_roundtrip_witness :
    (([0, 1] : List ℚ).map (fun t => t)).getLast? = some 1 ∧
      (runYsave true (fun t => t) [0, 1] =
          YSave.states (([0, 1] : List ℚ).map (fun t => t)) ∧
        final_state false (runYsave false (fun t => t) [0, 1]) =
          Except.ok (YSave.final (1 : ℚ)) ∧
        final_state true (runYsave true (fun t => t) [0, 1]) =
          Except.ok (YSave.final (1 : ℚ))) :=
  ⟨rfl, final_state_roundtrip (fun t => t) [0, 1] 1 rfl⟩

theorem zip_self_map {α β : Type} (l : List α) (g : α → β) :
    l.zip (l.map g) = l.map fun x => (x, g x) := by
  induction l with
  | nil => simp
  | cons a l ih => simp [ih]

theorem zipWith_tail_length {α β : Type} (f : α → α → β) (l : List α) :
    (List.zipWith f l l.tail).length = l.length - 1 := by
  cases l with
  | nil => simp
  | cons a t =>
    simp only [List.tail_cons, List.length_zipWith, List.length_cons]
    omega

theorem zipWith_tail_getD {α β : Type} (f : α → α → β) (l : List α) (d : β)
    (d' : α) :
    ∀ i : ℕ, i + 1 < l.length →
      (List.zipWith f l l.tail).getD i d = f (l.getD i d') (l.getD (i + 1) d') := by
  induction l with
  | nil =>
    intro i h
    simp at h
  | cons a t ih =>
    intro i h
    cases t with
    | nil =>
      simp at h
    | cons b t2 =>
      cases i with
      | zero => simp [List.getD]
      | succ j =>
        simp only [List.tail_cons, List.zipWith_cons_cons, List.getD_cons_succ]
        exact ih j (by simpa using h)

/-- C5: with the integrated signal `Y` saved at each save time, the
measurement record returned for each monitored jump operator over the save
interval `[t_i, t_{i+1})` is `(Y(t_{i+1}) - Y(t_i)) / (t_{i+1} - t_i)`, and
the time axis of the record has one entry per interval — length
`len(tsave) - 1`. -/
theorem measurement_record_per_interval {K : Type} (solY : ℚ → K → ℚ)
    (tsave : List ℚ) (hsort : tsave.Chain' (· < ·)) :
    (measurementRecords tsave (dsmeYsave solY tsave)).length = tsave.length - 1 ∧
      ∀ i : ℕ, i + 1 < tsave.length → ∀ k : K,
        (measurementRecords tsave (dsmeYsave solY tsave)).getD i (fun _ => 0) k
          = (solY (tsave.getD (i + 1) 0) k - solY (tsave.getD i 0) k)
              / (tsave.getD (i + 1) 0 - tsave.getD i 0) := by
  have hzip : measurementRecords tsave (dsmeYsave solY tsave)
      = List.zipWith
          (fun a b k => (solY b k - solY a k) / (b - a)) tsave tsave.tail := by
    unfold measurementRecords dsmeYsave
    rw [zip_self_map]
    rw [show (tsave.map fun x => (x, solY x)).tail
        = tsave.tail.map fun x => (x, solY x) from (List.map_tail _ _).symm]
    rw [List.zipWith_map]
  constructor
  · rw [hzip, zipWith_tail_length]
  · intro i hi k
    rw [hzip, zipWith_tail_getD _ _ _ 0 i hi]

/-- Witness for C5 with one monitored operator, `Y(t) = t²` and save times
`[0, 1, 3]`. -/
theorem measurement_record_per_interval_witness :
    (([0, 1, 3] : List ℚ).Chain' (· < ·)) ∧
      ((measurementRecords [0, 1, 3]
          (dsmeYsave (fun t (_ : Unit) => t * t) [0, 1, 3])).length
          = ([0, 1, 3] : List ℚ).length - 1 ∧
        ∀ i : ℕ, i + 1 < ([0, 1, 3] : List ℚ).length → ∀ k : Unit,
          (measurementRecords [0, 1, 3]
              (dsmeYsave (fun t (_ : Unit) => t * t) [0, 1, 3])).getD i
              (fun _ => 0) k
            = ((fun t (_ : Unit) => t * t) (([0, 1, 3] : List ℚ).getD (i + 1) 0) k
                  - (fun t (_ : Unit) => t * t) (([0, 1, 3] : List ℚ).getD i 0) k)
                / (([0, 1, 3] : List ℚ).getD (i + 1) 0
                  - ([0, 1, 3] : List ℚ).getD i 0)) := by
  have hsort : (([0, 1, 3] : List ℚ).Chain' (· < ·)) := by
    norm_num [List.chain'_cons]
  exact ⟨hsort,
    measurement_record_per_interval (fun t (_ : Unit) => t * t) [0, 1, 3] hsort⟩

/-- C9: a Cartesian-batched call over `k` Hamiltonians and `m` initial
states produces output whose leading two axes have lengths exactly `(k, m)`,
and whose `[i, j]` slice is the unbatched single-trajectory run on the `i`-th
Hamiltonian and the `j`-th initial state. -/
theorem cartesian_batching_law {A B C : Type} (f : A → B → C) (Hs : List A)
    (ys : List B) :
    (cartesian_vectorize f Hs ys).length = Hs.length ∧
      (∀ row ∈ cartesian_vectorize f Hs ys, row.length = ys.length) ∧
      ∀ (i j : ℕ) (h : A) (y : B), Hs[i]? = some h → ys[j]? = some y →
        ((cartesian_vectorize f Hs ys)[i]?.bind fun row => row[j]?)
          = some (f h y) := by
  refine ⟨by simp [cartesian_vectorize], ?_, ?_⟩
  · intro row hrow
    simp only [cartesian_vectorize, List.mem_map] at hrow
    obtain ⟨h, _, rfl⟩ := hrow
    simp
  · intro i j h y hi hj
    simp [cartesian_vectorize, List.getElem?_map, hi, hj]

/-- Witness for C9 with `f = (+)`, two "Hamiltonians" and three "states". -/
theorem cartesian_batching_law_witness :
    (([10, 20] : List ℕ)[1]? = some 20 ∧ (([1, 2, 3] : List ℕ))[2]? = some 3) ∧
      ((cartesian_vectorize (fun a b => a + b) [10, 20] [1, 2, 3])[1]?.bind
        fun row => row[2]?) = some 23 :=
  ⟨⟨rfl, rfl⟩,
    (cartesian_batching_law (fun a b => a + b) [10, 20] [1, 2, 3]).2.2
      1 2 20 3 rfl rfl⟩

end Spec2Proof
